import Mathlib

/-!
Verification of the utility module of Mutation-Simulator
(`mutation_simulator/util.py`).

The module's algorithmic core is `sample_with_minimum_distance(n, k, d)`:

```
sampl = sample(range(1, n - (k - 1) * d), k)
indices = sorted(range(len(sampl)), key=lambda i: sampl[i])
return [s + d * r for s, r in zip(sampl, sorted(indices, key=lambda i: indices[i]))]
```

We embed it shallowly.  The call `random.sample(population, k)` is modelled
by passing in the drawn list `sampl` explicitly; `random.sample` itself
validates `0 <= k <= len(population)` before drawing and raises
`ValueError` otherwise, which the specification names
`InvalidSampleParameters`.  The population is `range(1, n - (k-1)*d)`,
whose Python length is `max (n - (k-1)*d - 1) 0`.  Python's `sorted` is a
stable sort and is embedded as `List.mergeSort` (also stable) on the same
Boolean key comparison.

`pairwise(iterable)` (built on `tee`/`next`/`zip`) is `l.zip l.tail`, and
`load_fasta` wraps an external parser call, turning its `ValueError` into
`FastaDuplicateHeaderError`.
-/

namespace MutSim

/-- Error kind for the `ValueError` raised inside `random.sample` when the
parameters cannot yield a sample; the spec calls it `InvalidSampleParameters`.
It carries the offending parameters. -/
structure InvalidSampleParameters where
  n : Int
  k : Int
  d : Int
deriving DecidableEq, Repr

/-- Length of the Python population `range(1, n - (k-1)*d)`. -/
def rangeLen (n k d : Int) : Int :=
  max (n - (k - 1) * d - 1) 0

/-- The ordered-draw predicate: `sampl` is a possible value of
`random.sample(range(1, n - (k-1)*d), k)` — `k` pairwise-distinct values,
each in `[1, n - (k-1)*d)`, in draw order. -/
def IsRawDraw (n k d : Int) (sampl : List Int) : Prop :=
  (sampl.length : Int) = k ∧ sampl.Nodup ∧
    ∀ x ∈ sampl, 1 ≤ x ∧ x < n - (k - 1) * d

/-- Validity of the parameters in the sense of the specification's data
model: positive range bound, non-negative sample size and distance, and a
compressed domain large enough for `k` distinct draws. -/
def ValidParams (n k d : Int) : Prop :=
  0 < n ∧ 0 ≤ k ∧ 0 ≤ d ∧ k + 1 ≤ n - (k - 1) * d

/-- Embedding of `sorted(range(len(sampl)), key=lambda i: sampl[i])`:
the positions `0..len-1` stably sorted by the sampled value at each
position. -/
def argsortIdx (sampl : List Int) : List Nat :=
  (List.range sampl.length).mergeSort
    (fun i j => decide (sampl.getD i 0 ≤ sampl.getD j 0))

/-- Embedding of `sorted(indices, key=lambda i: indices[i])` with
`indices = argsortIdx sampl`: the second stable sort the source applies,
which inverts the argsort permutation. -/
def ranksList (sampl : List Int) : List Nat :=
  (argsortIdx sampl).mergeSort
    (fun i j => decide ((argsortIdx sampl).getD i 0 ≤ (argsortIdx sampl).getD j 0))

/-- Embedding of the final list comprehension
`[s + d * r for s, r in zip(sampl, sorted(indices, key=lambda i: indices[i]))]`. -/
def expand (d : Int) (sampl : List Int) : List Int :=
  (sampl.zip (ranksList sampl)).map (fun p => p.1 + d * (p.2 : Int))

/-- Embedding of `sample_with_minimum_distance(n, k, d)` as a function of
the parameters and of the list `sampl` drawn by `random.sample`.
`random.sample` raises `ValueError` (spec: `InvalidSampleParameters`)
before drawing anything unless `0 <= k <= len(population)`; otherwise the
source expands the draw. -/
def sample_with_minimum_distance (n k d : Int) (sampl : List Int) :
    Except InvalidSampleParameters (List Int) :=
  if 0 ≤ k ∧ k ≤ rangeLen n k d then
    Except.ok (expand d sampl)
  else
    Except.error ⟨n, k, d⟩

/-- The 0-based ascending rank of the value `s` among the values of
`sampl`: the number of strictly smaller entries. -/
def rankOf (sampl : List Int) (s : Int) : Nat :=
  (sampl.filter (fun t => decide (t < s))).length

/-- Embedding of `pairwise(iterable)` = `a, b = tee(iterable); next(b, None);
zip(a, b)`: the list zipped with its own tail. -/
def pairwise {α : Type} (l : List α) : List (α × α) :=
  l.zip l.tail

/-- Expansion of an ascending raw draw starting at rank `r`: the element at
ascending rank `r` is shifted by `d * r`.  Applied at `r = 0` to a sorted
draw it is the stars-and-bars expansion map. -/
def expandFrom (d : Int) : Nat → List Int → List Int
  | _, [] => []
  | r, s :: rest => (s + d * (r : Int)) :: expandFrom d (r + 1) rest

/-- Inverse of `expandFrom`: subtract `d * rank` from the element at each
ascending rank, starting at rank `r`. -/
def contractFrom (d : Int) : Nat → List Int → List Int
  | _, [] => []
  | r, y :: rest => (y - d * (r : Int)) :: contractFrom d (r + 1) rest

/-- A sorted-form description of the outputs actually reachable by the
source: a strictly ascending list of `k` values of `[1, n-1]` whose
adjacent gaps are at least `d + 1`. -/
def SortedGapList (n k d : Int) (l : List Int) : Prop :=
  (l.length : Int) = k ∧ l.Chain' (fun a b => a + d + 1 ≤ b) ∧
    ∀ x ∈ l, 1 ≤ x ∧ x ≤ n - 1

/-- Domain error raised by `load_fasta` when the Fasta contains a
duplicate header. -/
structure FastaDuplicateHeaderError where
  msg : String
deriving DecidableEq, Repr

/-- Embedding of `load_fasta(fname)`.  The external `pyfaidx.Fasta`
constructor is modelled as an oracle value `parse` that either returns the
parsed object or fails with a `ValueError` (carrying a message); the source
returns the parsed object unchanged and converts `ValueError` into
`FastaDuplicateHeaderError` with the source's message. -/
def load_fasta {F : Type} (fname : String) (parse : Except String F) :
    Except FastaDuplicateHeaderError F :=
  match parse with
  | Except.ok fa => Except.ok fa
  | Except.error _ =>
      Except.error ⟨"Fasta " ++ fname ++ " contains duplicate header"⟩

/-! ### Structure of the double stable sort

The source computes `indices = argsort(sampl)` and then sorts `indices` by
`indices[i]`, which inverts the argsort permutation; position `i` of the
result is the 0-based ascending rank of `sampl[i]`.  The lemmas below
establish this. -/

lemma map_getD_range {α : Type} (l : List α) (d₀ : α) :
    (List.range l.length).map (fun i => l.getD i d₀) = l := by
  apply List.ext_getElem
  · simp
  · intro i h1 h2
    simp only [List.getElem_map, List.getElem_range]
    exact List.getD_eq_getElem l d₀ h2

lemma argsortIdx_perm (sampl : List Int) :
    (argsortIdx sampl).Perm (List.range sampl.length) :=
  List.mergeSort_perm _ _

lemma argsortIdx_length (sampl : List Int) :
    (argsortIdx sampl).length = sampl.length := by
  simpa using (argsortIdx_perm sampl).length_eq

lemma argsortIdx_nodup (sampl : List Int) : (argsortIdx sampl).Nodup :=
  (argsortIdx_perm sampl).nodup_iff.mpr (List.nodup_range _)

lemma argsortIdx_mem_lt (sampl : List Int) {i : Nat}
    (h : i ∈ argsortIdx sampl) : i < sampl.length := by
  have := (argsortIdx_perm sampl).mem_iff.mp h
  simpa using this

lemma argsortIdx_pairwise_le (sampl : List Int) :
    (argsortIdx sampl).Pairwise (fun i j => sampl.getD i 0 ≤ sampl.getD j 0) := by
  have h := @List.sorted_mergeSort Nat
      (fun i j => decide (sampl.getD i 0 ≤ sampl.getD j 0))
      (fun a b c hab hbc => by
        simp only [decide_eq_true_eq] at *
        exact le_trans hab hbc)
      (fun a b => by
        simp only [Bool.or_eq_true, decide_eq_true_eq]
        exact le_total _ _)
      (List.range sampl.length)
  exact h.imp (fun hab => by simpa using hab)

/-- Strictification: a list of positions into a duplicate-free list, itself
duplicate-free and weakly sorted by the values at those positions, is
strictly sorted by those values. -/
lemma pairwise_getD_lt {β : Type} [LinearOrder β] (l : List β) (d₀ : β)
    (idx : List Nat) (hl : l.Nodup) (hidx : idx.Nodup)
    (hmem : ∀ i ∈ idx, i < l.length)
    (hle : idx.Pairwise (fun i j => l.getD i d₀ ≤ l.getD j d₀)) :
    idx.Pairwise (fun i j => l.getD i d₀ < l.getD j d₀) := by
  have hcomb := hle.and hidx
  refine hcomb.imp_of_mem ?_
  intro i j hi hj hij
  rcases hij with ⟨hij_le, hij_ne⟩
  have hi' : i < l.length := hmem i hi
  have hj' : j < l.length := hmem j hj
  rw [List.getD_eq_getElem l d₀ hi', List.getD_eq_getElem l d₀ hj'] at *
  exact lt_of_le_of_ne hij_le (fun hv => hij_ne ((hl.getElem_inj_iff).mp hv))

lemma argsortIdx_pairwise_lt (sampl : List Int) (hn : sampl.Nodup) :
    (argsortIdx sampl).Pairwise (fun i j => sampl.getD i 0 < sampl.getD j 0) :=
  pairwise_getD_lt sampl 0 (argsortIdx sampl) hn (argsortIdx_nodup sampl)
    (fun i hi => argsortIdx_mem_lt sampl hi) (argsortIdx_pairwise_le sampl)

/-- In a strictly ascending list, the number of entries smaller than the
entry at position `r` is exactly `r`. -/
lemma filter_lt_length_of_sorted (ks : List Int)
    (hs : ks.Pairwise (· < ·)) :
    ∀ r, r < ks.length →
      (ks.filter (fun t => decide (t < ks.getD r 0))).length = r := by
  induction ks with
  | nil => intro r hr; simp at hr
  | cons x tl ih =>
    intro r hr
    rcases List.pairwise_cons.mp hs with ⟨hx, htl⟩
    cases r with
    | zero =>
      simp only [List.getD_cons_zero]
      rw [List.length_eq_zero, List.filter_eq_nil_iff]
      intro a ha
      simp only [decide_eq_true_eq]
      rcases List.mem_cons.mp ha with rfl | ha'
      · exact lt_irrefl a
      · exact not_lt.mpr (le_of_lt (hx a ha'))
    | succ r =>
      simp only [List.getD_cons_succ]
      have hr' : r < tl.length := by simpa using hr
      have hmem : tl.getD r 0 ∈ tl := by
        rw [List.getD_eq_getElem tl 0 hr']
        exact List.getElem_mem hr'
      have hxlt : x < tl.getD r 0 := hx _ hmem
      rw [List.filter_cons_of_pos (by simpa using hxlt)]
      simp only [List.length_cons]
      rw [ih htl r hr']

lemma ranksList_perm (sampl : List Int) :
    (ranksList sampl).Perm (List.range sampl.length) :=
  (List.mergeSort_perm _ _).trans (argsortIdx_perm sampl)

lemma ranksList_length (sampl : List Int) :
    (ranksList sampl).length = sampl.length := by
  simpa using (ranksList_perm sampl).length_eq

lemma ranksList_nodup (sampl : List Int) : (ranksList sampl).Nodup :=
  (ranksList_perm sampl).nodup_iff.mpr (List.nodup_range _)

lemma ranksList_mem_lt (sampl : List Int) {i : Nat}
    (h : i ∈ ranksList sampl) : i < sampl.length := by
  have := (ranksList_perm sampl).mem_iff.mp h
  simpa using this

lemma ranksList_pairwise_lt (sampl : List Int) :
    (ranksList sampl).Pairwise
      (fun i j => (argsortIdx sampl).getD i 0 < (argsortIdx sampl).getD j 0) := by
  have hle : (ranksList sampl).Pairwise
      (fun i j => (argsortIdx sampl).getD i 0 ≤ (argsortIdx sampl).getD j 0) := by
    have h := @List.sorted_mergeSort Nat
        (fun i j => decide ((argsortIdx sampl).getD i 0 ≤ (argsortIdx sampl).getD j 0))
        (fun a b c hab hbc => by
          simp only [decide_eq_true_eq] at *
          exact le_trans hab hbc)
        (fun a b => by
          simp only [Bool.or_eq_true, decide_eq_true_eq]
          exact le_total _ _)
        (argsortIdx sampl)
    exact h.imp (fun hab => by simpa using hab)
  refine pairwise_getD_lt (argsortIdx sampl) 0 (ranksList sampl)
      (argsortIdx_nodup sampl) (ranksList_nodup sampl) ?_ hle
  intro i hi
  rw [argsortIdx_length]
  exact ranksList_mem_lt sampl hi

/-- The second sort inverts the first: reading the rank list at position `i`
and then the argsort at that rank returns `i`. -/
lemma argsort_ranks_inverse (sampl : List Int) (i : Nat) (hi : i < sampl.length) :
    (argsortIdx sampl).getD ((ranksList sampl).getD i 0) 0 = i := by
  have hkeys : (ranksList sampl).map (fun e => (argsortIdx sampl).getD e 0) =
      List.range sampl.length := by
    haveI inst : IsAntisymm Nat (· < ·) :=
      ⟨fun a b h1 h2 => absurd (Nat.lt_trans h1 h2) (Nat.lt_irrefl a)⟩
    apply @List.eq_of_perm_of_sorted Nat (· < ·) inst
    · have h1 : ((ranksList sampl).map (fun e => (argsortIdx sampl).getD e 0)).Perm
          ((argsortIdx sampl).map (fun e => (argsortIdx sampl).getD e 0)) :=
        (List.mergeSort_perm _ _).map _
      have h2 : ((argsortIdx sampl).map (fun e => (argsortIdx sampl).getD e 0)).Perm
          ((List.range sampl.length).map (fun e => (argsortIdx sampl).getD e 0)) :=
        (argsortIdx_perm sampl).map _
      have h3 : (List.range sampl.length).map (fun e => (argsortIdx sampl).getD e 0) =
          argsortIdx sampl := by
        have h := map_getD_range (argsortIdx sampl) 0
        rwa [argsortIdx_length] at h
      rw [h3] at h2
      exact h1.trans (h2.trans (argsortIdx_perm sampl))
    · exact List.pairwise_map.mpr (ranksList_pairwise_lt sampl)
    · exact List.pairwise_lt_range _
  have hlen : (ranksList sampl).length = sampl.length := ranksList_length sampl
  have hi1 : i < ((ranksList sampl).map
      (fun e => (argsortIdx sampl).getD e 0)).length := by
    simpa [hlen] using hi
  have h2 := List.getElem_of_eq hkeys hi1
  rw [List.getElem_map, List.getElem_range] at h2
  rwa [List.getD_eq_getElem (ranksList sampl) 0 (by omega)]

/-- Position `i` of the rank list is the 0-based ascending rank of
`sampl[i]` among the (pairwise-distinct) sampled values. -/
lemma ranksList_getD_eq_rankOf (sampl : List Int) (hn : sampl.Nodup)
    (i : Nat) (hi : i < sampl.length) :
    (ranksList sampl).getD i 0 = rankOf sampl (sampl.getD i 0) := by
  have hrk_len : (ranksList sampl).length = sampl.length := ranksList_length sampl
  have hr_mem : (ranksList sampl).getD i 0 ∈ ranksList sampl := by
    rw [List.getD_eq_getElem (ranksList sampl) 0 (by omega)]
    exact List.getElem_mem _
  have hr_lt : (ranksList sampl).getD i 0 < sampl.length :=
    ranksList_mem_lt sampl hr_mem
  have hinv : (argsortIdx sampl).getD ((ranksList sampl).getD i 0) 0 = i :=
    argsort_ranks_inverse sampl i hi
  have hk_sorted : ((argsortIdx sampl).map (fun e => sampl.getD e 0)).Pairwise
      (· < ·) :=
    List.pairwise_map.mpr (argsortIdx_pairwise_lt sampl hn)
  have hk_perm : ((argsortIdx sampl).map (fun e => sampl.getD e 0)).Perm sampl := by
    have h2 : ((argsortIdx sampl).map (fun e => sampl.getD e 0)).Perm
        ((List.range sampl.length).map (fun e => sampl.getD e 0)) :=
      (argsortIdx_perm sampl).map _
    rwa [map_getD_range sampl 0] at h2
  have hk_len : ((argsortIdx sampl).map (fun e => sampl.getD e 0)).length =
      sampl.length := by
    simp [argsortIdx_length]
  have hfil := filter_lt_length_of_sorted _ hk_sorted ((ranksList sampl).getD i 0)
      (by omega)
  have hkgd : ((argsortIdx sampl).map (fun e => sampl.getD e 0)).getD
      ((ranksList sampl).getD i 0) 0 = sampl.getD i 0 := by
    rw [List.getD_eq_getElem _ 0 (by omega)]
    rw [List.getElem_map]
    rw [← List.getD_eq_getElem (argsortIdx sampl) 0
        (by rw [argsortIdx_length]; omega)]
    rw [hinv]
  rw [hkgd] at hfil
  have hrank : rankOf sampl (sampl.getD i 0) =
      (((argsortIdx sampl).map (fun e => sampl.getD e 0)).filter
        (fun t => decide (t < sampl.getD i 0))).length := by
    unfold rankOf
    exact ((hk_perm.filter _).length_eq).symm
  omega

lemma length_expand (d : Int) (sampl : List Int) :
    (expand d sampl).length = sampl.length := by
  simp [expand, ranksList_length]

/-- Characterization of the source's expansion step: with pairwise-distinct
draws, the output at each position is the drawn value plus `d` times its
0-based ascending rank. -/
lemma expand_eq_map (d : Int) (sampl : List Int) (hn : sampl.Nodup) :
    expand d sampl = sampl.map (fun s => s + d * (rankOf sampl s : Int)) := by
  apply List.ext_getElem
  · simp [length_expand]
  · intro i h1 h2
    have hrk_len : (ranksList sampl).length = sampl.length := ranksList_length sampl
    have hi : i < sampl.length := by simpa [length_expand] using h1
    simp only [expand, List.getElem_map, List.getElem_zip]
    have hr2 : (ranksList sampl).getD i 0 = rankOf sampl (sampl.getD i 0) :=
      ranksList_getD_eq_rankOf sampl hn i hi
    rw [List.getD_eq_getElem (ranksList sampl) 0 (by omega),
      List.getD_eq_getElem sampl 0 hi] at hr2
    rw [hr2]

/-! ### Properties of the rank function and of the expanded values -/

lemma rankOf_lt_length (sampl : List Int) (s : Int) (hs : s ∈ sampl) :
    rankOf sampl s < sampl.length := by
  unfold rankOf
  by_contra h
  push_neg at h
  have hle := List.length_filter_le (fun t => decide (t < s)) sampl
  have heq : sampl.filter (fun t => decide (t < s)) = sampl :=
    (List.filter_sublist sampl).eq_of_length (le_antisymm hle h)
  have hmem : s ∈ sampl.filter (fun t => decide (t < s)) := by
    rw [heq]; exact hs
  have := (List.mem_filter.mp hmem).2
  simp at this

lemma rankOf_lt_rankOf (sampl : List Int) (s t : Int) (hs : s ∈ sampl)
    (hst : s < t) : rankOf sampl s < rankOf sampl t := by
  unfold rankOf
  induction sampl with
  | nil => simp at hs
  | cons x xs ih =>
    rcases List.mem_cons.mp hs with rfl | hs'
    · rw [List.filter_cons_of_neg (by simp), List.filter_cons_of_pos (by simpa using hst)]
      simp only [List.length_cons]
      have hmono : (xs.filter (fun u => decide (u < s))).length ≤
          (xs.filter (fun u => decide (u < t))).length := by
        rw [← List.countP_eq_length_filter, ← List.countP_eq_length_filter]
        exact List.countP_mono_left (fun u _ hu => by
          simp only [decide_eq_true_eq] at *
          exact lt_trans hu hst)
      omega
    · have h1 := ih hs'
      by_cases hx : x < s
      · rw [List.filter_cons_of_pos (by simpa using hx),
          List.filter_cons_of_pos (by simpa using lt_trans hx hst)]
        simpa using Nat.succ_lt_succ h1
      · rw [List.filter_cons_of_neg (by simpa using hx)]
        by_cases hx2 : x < t
        · rw [List.filter_cons_of_pos (by simpa using hx2)]
          simp only [List.length_cons]
          omega
        · rw [List.filter_cons_of_neg (by simpa using hx2)]
          exact h1

/-- The expanded value map is strictly monotone on drawn values when
`d ≥ 0`. -/
lemma expandVal_lt (sampl : List Int) (d : Int) (hd : 0 ≤ d) {s t : Int}
    (hs : s ∈ sampl) (hst : s < t) :
    s + d * (rankOf sampl s : Int) < t + d * (rankOf sampl t : Int) := by
  have hrk := rankOf_lt_rankOf sampl s t hs hst
  have h1 : (rankOf sampl s : Int) ≤ (rankOf sampl t : Int) := by exact_mod_cast le_of_lt hrk
  have h2 : d * (rankOf sampl s : Int) ≤ d * (rankOf sampl t : Int) :=
    mul_le_mul_of_nonneg_left h1 hd
  linarith

/-- All-pairs strict spacing of the expansion output: two output values in
strictly increasing position differ by more than `d`. -/
lemma expand_gap (n k d : Int) (hv : ValidParams n k d) (sampl : List Int)
    (hr : IsRawDraw n k d sampl) :
    ∀ a ∈ expand d sampl, ∀ b ∈ expand d sampl, a < b → a + d + 1 ≤ b := by
  obtain ⟨hlen, hnd, hbound⟩ := hr
  obtain ⟨hn, hk, hd, hm⟩ := hv
  rw [expand_eq_map d sampl hnd]
  intro a ha b hb hab
  rcases List.mem_map.mp ha with ⟨s, hsmem, rfl⟩
  rcases List.mem_map.mp hb with ⟨t, htmem, rfl⟩
  have hst : s < t := by
    rcases lt_trichotomy s t with h | h | h
    · exact h
    · subst h; exact absurd hab (lt_irrefl _)
    · exact absurd hab (not_lt.mpr (le_of_lt (expandVal_lt sampl d hd htmem h)))
  have hrk := rankOf_lt_rankOf sampl s t hsmem hst
  have h1 : (rankOf sampl s : Int) + 1 ≤ (rankOf sampl t : Int) := by exact_mod_cast hrk
  have h2 : d * ((rankOf sampl s : Int) + 1) ≤ d * (rankOf sampl t : Int) :=
    mul_le_mul_of_nonneg_left h1 hd
  have hst' : s + 1 ≤ t := Int.lt_iff_add_one_le.mp hst
  linarith

/-- Every expanded value lies in `[1, n-1]`. -/
lemma expand_mem_bounds (n k d : Int) (hv : ValidParams n k d) (sampl : List Int)
    (hr : IsRawDraw n k d sampl) :
    ∀ v ∈ expand d sampl, 1 ≤ v ∧ v ≤ n - 1 := by
  obtain ⟨hlen, hnd, hbound⟩ := hr
  obtain ⟨hn, hk, hd, hm⟩ := hv
  rw [expand_eq_map d sampl hnd]
  intro v hv'
  rcases List.mem_map.mp hv' with ⟨s, hsmem, rfl⟩
  obtain ⟨hs1, hs2⟩ := hbound s hsmem
  have hrk : rankOf sampl s < sampl.length := rankOf_lt_length sampl s hsmem
  have hrkle : (rankOf sampl s : Int) ≤ k - 1 := by
    have : (rankOf sampl s : Int) < (sampl.length : Int) := by exact_mod_cast hrk
    omega
  constructor
  · have : 0 ≤ d * (rankOf sampl s : Int) :=
      mul_nonneg hd (by exact_mod_cast Nat.zero_le _)
    linarith
  · have h2 : d * (rankOf sampl s : Int) ≤ d * (k - 1) :=
      mul_le_mul_of_nonneg_left hrkle hd
    have hs2' : s + 1 ≤ n - (k - 1) * d := Int.lt_iff_add_one_le.mp hs2
    linarith

/-- The expansion output has no duplicate values when `d ≥ 0`. -/
lemma expand_nodup (n k d : Int) (hv : ValidParams n k d) (sampl : List Int)
    (hr : IsRawDraw n k d sampl) : (expand d sampl).Nodup := by
  obtain ⟨hlen, hnd, hbound⟩ := hr
  obtain ⟨hn, hk, hd, hm⟩ := hv
  rw [expand_eq_map d sampl hnd]
  refine List.Nodup.map_on ?_ hnd
  intro s hs t ht hft
  rcases lt_trichotomy s t with h | h | h
  · exact absurd hft (ne_of_lt (expandVal_lt sampl d hd hs h))
  · exact h
  · exact absurd hft.symm (ne_of_lt (expandVal_lt sampl d hd ht h))

/-! ### The stars-and-bars bijection on sorted lists -/

lemma rankOf_perm {l₁ l₂ : List Int} (h : l₁.Perm l₂) (s : Int) :
    rankOf l₁ s = rankOf l₂ s :=
  (h.filter _).length_eq

lemma length_expandFrom (d : Int) :
    ∀ (r : Nat) (l : List Int), (expandFrom d r l).length = l.length := by
  intro r l
  induction l generalizing r with
  | nil => simp [expandFrom]
  | cons x tl ih => simp [expandFrom, ih]

lemma length_contractFrom (d : Int) :
    ∀ (r : Nat) (l : List Int), (contractFrom d r l).length = l.length := by
  intro r l
  induction l generalizing r with
  | nil => simp [contractFrom]
  | cons x tl ih => simp [contractFrom, ih]

lemma getD_expandFrom (d : Int) :
    ∀ (l : List Int) (r i : Nat), i < l.length →
      (expandFrom d r l).getD i 0 = l.getD i 0 + d * ((r : Int) + i) := by
  intro l
  induction l with
  | nil => intro r i hi; simp at hi
  | cons x tl ih =>
    intro r i hi
    cases i with
    | zero =>
      simp only [expandFrom, List.getD_cons_zero]
      push_cast
      ring
    | succ i =>
      simp only [expandFrom, List.getD_cons_succ]
      rw [ih (r + 1) i (by simpa using hi)]
      push_cast
      ring

lemma getD_contractFrom (d : Int) :
    ∀ (l : List Int) (r i : Nat), i < l.length →
      (contractFrom d r l).getD i 0 = l.getD i 0 - d * ((r : Int) + i) := by
  intro l
  induction l with
  | nil => intro r i hi; simp at hi
  | cons x tl ih =>
    intro r i hi
    cases i with
    | zero =>
      simp only [contractFrom, List.getD_cons_zero]
      push_cast
      ring
    | succ i =>
      simp only [contractFrom, List.getD_cons_succ]
      rw [ih (r + 1) i (by simpa using hi)]
      push_cast
      ring

lemma contractFrom_expandFrom (d : Int) :
    ∀ (l : List Int) (r : Nat), contractFrom d r (expandFrom d r l) = l := by
  intro l
  induction l with
  | nil => intro r; simp [expandFrom, contractFrom]
  | cons x tl ih =>
    intro r
    simp [expandFrom, contractFrom, ih (r + 1)]

lemma expandFrom_contractFrom (d : Int) :
    ∀ (l : List Int) (r : Nat), expandFrom d r (contractFrom d r l) = l := by
  intro l
  induction l with
  | nil => intro r; simp [expandFrom, contractFrom]
  | cons x tl ih =>
    intro r
    simp [expandFrom, contractFrom, ih (r + 1)]

lemma chain_expandFrom (d : Int) (hd : 0 ≤ d) :
    ∀ (l : List Int) (r : Nat), l.Chain' (fun a b => a + 1 ≤ b) →
      (expandFrom d r l).Chain' (fun a b => a + d + 1 ≤ b) := by
  intro l
  induction l with
  | nil => intro r _; simp [expandFrom]
  | cons x tl ih =>
    intro r hc
    cases tl with
    | nil => simp [expandFrom]
    | cons y tl' =>
      rcases List.chain'_cons.mp hc with ⟨hxy, hc'⟩
      refine List.chain'_cons.mpr ⟨?_, ih (r + 1) hc'⟩
      show x + d * (r : Int) + d + 1 ≤ y + d * ((r : Int) + 1)
      linarith

lemma chain_contractFrom (d : Int) :
    ∀ (l : List Int) (r : Nat), l.Chain' (fun a b => a + d + 1 ≤ b) →
      (contractFrom d r l).Chain' (fun a b => a + 1 ≤ b) := by
  intro l
  induction l with
  | nil => intro r _; simp [contractFrom]
  | cons x tl ih =>
    intro r hc
    cases tl with
    | nil => simp [contractFrom]
    | cons y tl' =>
      rcases List.chain'_cons.mp hc with ⟨hxy, hc'⟩
      refine List.chain'_cons.mpr ⟨?_, ih (r + 1) hc'⟩
      show x - d * (r : Int) + 1 ≤ y - d * ((r : Int) + 1)
      linarith

/-- On a strictly ascending enumeration of the drawn values, the source's
rank-based expansion is exactly the positional stars-and-bars expansion. -/
lemma map_rank_eq_expandFrom (d : Int) (sampl ks : List Int)
    (hperm : ks.Perm sampl) (hsort : ks.Pairwise (· < ·)) :
    ks.map (fun s => s + d * (rankOf sampl s : Int)) = expandFrom d 0 ks := by
  apply List.ext_getElem
  · simp [length_expandFrom]
  · intro i h1 h2
    have hi : i < ks.length := by simpa using h1
    rw [List.getElem_map]
    rw [← List.getD_eq_getElem (expandFrom d 0 ks) 0 h2]
    rw [getD_expandFrom d ks 0 i hi]
    rw [← List.getD_eq_getElem ks 0 hi]
    have hrk : rankOf sampl (ks.getD i 0) = i := by
      rw [← rankOf_perm hperm]
      exact filter_lt_length_of_sorted ks hsort i hi
    rw [hrk]
    push_cast
    ring

/-- The head-anchored lower bound along a chain with increments at least
`c`. -/
lemma chain_head_le (c : Int) :
    ∀ (l : List Int), l.Chain' (fun a b => a + c ≤ b) →
      ∀ i : Nat, i < l.length → l.getD 0 0 + c * (i : Int) ≤ l.getD i 0 := by
  intro l
  induction l with
  | nil => intro _ i hi; simp at hi
  | cons x tl ih =>
    intro hc i hi
    cases i with
    | zero => simp
    | succ i =>
      cases tl with
      | nil => simp at hi
      | cons y tl' =>
        rcases List.chain'_cons.mp hc with ⟨hxy, hc'⟩
        have := ih hc' i (by simpa using hi)
        simp only [List.getD_cons_zero, List.getD_cons_succ] at *
        push_cast
        linarith

/-- The bound from a chain element to the last element: with `i + j + 1`
entries in total, the element at position `i` plus `c * j` is at most the
element at position `i + j`. -/
lemma chain_le_last (c : Int) :
    ∀ (l : List Int), l.Chain' (fun a b => a + c ≤ b) →
      ∀ i j : Nat, i + j + 1 = l.length →
        l.getD i 0 + c * (j : Int) ≤ l.getD (i + j) 0 := by
  intro l
  induction l with
  | nil => intro _ i j hij; simp at hij
  | cons x tl ih =>
    intro hc i j hij
    cases i with
    | zero =>
      cases j with
      | zero => simp
      | succ j =>
        cases tl with
        | nil => simp at hij
        | cons y tl' =>
          rcases List.chain'_cons.mp hc with ⟨hxy, hc'⟩
          have hstep := ih hc' 0 j
            (by simp only [List.length_cons] at hij ⊢; omega)
          rw [Nat.zero_add] at hstep
          rw [Nat.zero_add]
          simp only [List.getD_cons_zero, List.getD_cons_succ] at hstep ⊢
          push_cast at hstep ⊢
          linarith
    | succ i =>
      cases tl with
      | nil => simp at hij
      | cons y tl' =>
        rcases List.chain'_cons.mp hc with ⟨hxy, hc'⟩
        have hidx : i + 1 + j = (i + j) + 1 := by omega
        rw [hidx]
        simp only [List.getD_cons_succ]
        exact ih hc' i j (by simp only [List.length_cons] at hij ⊢; omega)

/-- Any weakly-sorted enumeration of the expansion output has adjacent
gaps of at least `d + 1`. -/
lemma sortedOut_chain (n k d : Int) (hv : ValidParams n k d) (sampl : List Int)
    (hr : IsRawDraw n k d sampl) (l : List Int)
    (hperm : l.Perm (expand d sampl)) (hsort : l.Pairwise (· ≤ ·)) :
    l.Chain' (fun a b => a + d + 1 ≤ b) := by
  have hnd : l.Nodup := hperm.nodup_iff.mpr (expand_nodup n k d hv sampl hr)
  rw [List.chain'_iff_get]
  intro i hi
  have hi1 : i < l.length := by omega
  have hi2 : i + 1 < l.length := by omega
  have h1 : l.get ⟨i, hi1⟩ ≤ l.get ⟨i + 1, hi2⟩ :=
    List.pairwise_iff_get.mp hsort ⟨i, hi1⟩ ⟨i + 1, hi2⟩ (by simp [Fin.mk_lt_mk])
  have hne : l.get ⟨i, hi1⟩ ≠ l.get ⟨i + 1, hi2⟩ := by
    intro h
    have := (List.Nodup.get_inj_iff hnd).mp h
    simp at this
  exact expand_gap n k d hv sampl hr _
    (hperm.subset (List.get_mem l i hi1)) _
    (hperm.subset (List.get_mem l (i + 1) hi2)) (lt_of_le_of_ne h1 hne)

/-- Every duplicate-free list of integers has a strictly ascending
enumeration. -/
lemma exists_sorted_perm (l : List Int) (hn : l.Nodup) :
    ∃ ks : List Int, ks.Perm l ∧ ks.Pairwise (· < ·) := by
  refine ⟨l.mergeSort (fun a b => decide (a ≤ b)), List.mergeSort_perm l _, ?_⟩
  have hs := @List.sorted_mergeSort Int (fun a b => decide (a ≤ b))
      (fun a b c hab hbc => by
        simp only [decide_eq_true_eq] at *
        exact le_trans hab hbc)
      (fun a b => by
        simp only [Bool.or_eq_true, decide_eq_true_eq]
        exact le_total _ _) l
  have hle : (l.mergeSort (fun a b => decide (a ≤ b))).Pairwise (· ≤ ·) :=
    hs.imp (fun h => by simpa using h)
  have hnd : (l.mergeSort (fun a b => decide (a ≤ b))).Nodup :=
    (List.mergeSort_perm l _).nodup_iff.mpr hn
  exact (hle.and hnd).imp (fun h => lt_of_le_of_ne h.1 h.2)

/-- The expansion output is a permutation of the positional stars-and-bars
expansion of any strictly ascending enumeration of the draw. -/
lemma expand_perm_expandFrom (d : Int) (sampl ks : List Int) (hn : sampl.Nodup)
    (hperm : ks.Perm sampl) (hsort : ks.Pairwise (· < ·)) :
    (expand d sampl).Perm (expandFrom d 0 ks) := by
  rw [expand_eq_map d sampl hn, ← map_rank_eq_expandFrom d sampl ks hperm hsort]
  exact (hperm.map _).symm

/-- Completeness construction: any strictly ascending gap-`d+1` list of
`k` values of `[1, n-1]` is the exact output of the source on the
contracted draw. -/
lemma sortedGap_contract (n k d : Int) (hv : ValidParams n k d) (l : List Int)
    (hl : SortedGapList n k d l) :
    IsRawDraw n k d (contractFrom d 0 l) ∧ expand d (contractFrom d 0 l) = l := by
  obtain ⟨hlen, hchain, hbound⟩ := hl
  obtain ⟨hn, hk, hd, hm⟩ := hv
  have hchain1 : (contractFrom d 0 l).Chain' (fun a b => a + 1 ≤ b) :=
    chain_contractFrom d l 0 hchain
  haveI : IsTrans Int (fun a b => a + 1 ≤ b) := ⟨fun a b c h1 h2 => by omega⟩
  have hpw : (contractFrom d 0 l).Pairwise (fun a b => a + 1 ≤ b) :=
    List.chain'_iff_pairwise.mp hchain1
  have hlt : (contractFrom d 0 l).Pairwise (· < ·) := hpw.imp (fun h => by omega)
  have hnd : (contractFrom d 0 l).Nodup := hlt.imp (fun h => ne_of_lt h)
  have hclen : (contractFrom d 0 l).length = l.length := length_contractFrom d 0 l
  refine ⟨⟨by rw [hclen]; exact hlen, hnd, ?_⟩, ?_⟩
  · intro y hy
    rcases List.mem_iff_getElem.mp hy with ⟨i, hi, hval⟩
    have hil : i < l.length := by omega
    have hvalD : l.getD i 0 - d * (((0 : Nat) : Int) + i) = y := by
      rw [← getD_contractFrom d l 0 i hil, List.getD_eq_getElem _ _ hi]
      exact hval
    push_cast at hvalD
    have h0 : 0 < l.length := by omega
    have hhead : 1 ≤ l.getD 0 0 := by
      have hmem : l.getD 0 0 ∈ l := by
        rw [List.getD_eq_getElem _ _ h0]
        exact List.getElem_mem h0
      exact (hbound _ hmem).1
    have hchainA : l.Chain' (fun a b => a + (d + 1) ≤ b) :=
      hchain.imp (fun a b h => by linarith)
    have hlow := chain_head_le (d + 1) l hchainA i hil
    obtain ⟨j, hj⟩ : ∃ j, i + j + 1 = l.length := ⟨l.length - 1 - i, by omega⟩
    have hup := chain_le_last (d + 1) l hchainA i j hj
    have hlast : l.getD (i + j) 0 ≤ n - 1 := by
      have hl2 : i + j < l.length := by omega
      have hmem : l.getD (i + j) 0 ∈ l := by
        rw [List.getD_eq_getElem _ _ hl2]
        exact List.getElem_mem hl2
      exact (hbound _ hmem).2
    have hk_eq : k = (i : Int) + (j : Int) + 1 := by
      rw [← hlen, ← hj]
      push_cast
      ring
    have hi_nonneg : (0 : Int) ≤ (i : Int) := Int.natCast_nonneg i
    constructor
    · linarith
    · rw [hk_eq]
      linarith
  · rw [expand_eq_map d _ hnd,
      map_rank_eq_expandFrom d _ _ (List.Perm.refl _) hlt,
      expandFrom_contractFrom]

/-! ### Success and failure of the embedded call -/

/-- Under valid parameters the call succeeds and returns the expansion of
the draw. -/
lemma swmd_ok (n k d : Int) (hv : ValidParams n k d) (sampl : List Int) :
    sample_with_minimum_distance n k d sampl = Except.ok (expand d sampl) := by
  obtain ⟨hn, hk, hd, hm⟩ := hv
  unfold sample_with_minimum_distance
  rw [if_pos]
  refine ⟨hk, ?_⟩
  unfold rangeLen
  rw [le_max_iff]
  left
  omega

/-- Exact characterization of the failure of the embedded call: the
`ValueError` of `random.sample` fires exactly when `k` is negative or `k`
is positive and exceeds the population size. -/
lemma swmd_error_iff (n k d : Int) (sampl : List Int) :
    sample_with_minimum_distance n k d sampl = Except.error ⟨n, k, d⟩ ↔
      (k < 0 ∨ (1 ≤ k ∧ n - (k - 1) * d ≤ k)) := by
  unfold sample_with_minimum_distance rangeLen
  generalize n - (k - 1) * d = M
  by_cases h : 0 ≤ k ∧ k ≤ max (M - 1) 0
  · rw [if_pos h]
    rcases h with ⟨h1, h2⟩
    rw [le_max_iff] at h2
    constructor
    · intro hco
      exact absurd hco (by simp)
    · intro hrhs
      exfalso
      omega
  · rw [if_neg h]
    constructor
    · intro _
      rcases lt_or_ge k 0 with hk | hk
      · exact Or.inl hk
      · right
        have hB : ¬ k ≤ max (M - 1) 0 := fun hB => h ⟨hk, hB⟩
        rw [not_le, max_lt_iff] at hB
        omega
    · intro _
      rfl

/-- C2 (corrected): whenever the compressed range bound
`n - (k-1)*d` is at most `k` and `k` is nonzero, the call fails with
`InvalidSampleParameters` carrying the offending parameters, regardless of
the random draw (so before and independent of any drawing), and no output
list is produced. -/
theorem C2_rejection (n k d : Int) (h1 : n - (k - 1) * d ≤ k) (h2 : k ≠ 0) :
    ∀ sampl : List Int,
      sample_with_minimum_distance n k d sampl = Except.error ⟨n, k, d⟩ := by
  intro sampl
  rw [swmd_error_iff]
  rcases lt_or_ge k 0 with hk | hk
  · exact Or.inl hk
  · exact Or.inr ⟨by omega, h1⟩

/-- Witness for C2 at the spec's concrete failure scenario
`(n, k, d) = (5, 3, 2)`. -/
theorem C2_rejection_witness :
    ((5 : Int) - (3 - 1) * 2 ≤ 3 ∧ (3 : Int) ≠ 0) ∧
      sample_with_minimum_distance 5 3 2 [] = Except.error ⟨5, 3, 2⟩ :=
  ⟨⟨by norm_num, by norm_num⟩, C2_rejection 5 3 2 (by norm_num) (by norm_num) []⟩

/-- Counterexample to C2 as stated: at `(n, k, d) = (0, 0, 0)` the
hypothesis `n - (k-1)*d ≤ k` holds, yet the call does not fail — it
returns the empty sample, because `random.sample` accepts `k = 0` even on
an empty population. -/
theorem C2_counterexample :
    ((0 : Int) - (0 - 1) * 0 ≤ 0) ∧
      sample_with_minimum_distance 0 0 0 [] = Except.ok [] := by
  refine ⟨by norm_num, ?_⟩
  unfold sample_with_minimum_distance
  rw [if_pos (by unfold rangeLen; norm_num)]
  simp [expand]

/-- C3 (corrected): the call fails with `InvalidSampleParameters` exactly
when `k < 0`, or `k ≥ 1` and `n - (k-1)*d ≤ k`.  In particular `k < 0`
always fails, but `d < 0` or `n ≤ 0` on their own do not force a failure. -/
theorem C3_error_characterization (n k d : Int) (sampl : List Int) :
    sample_with_minimum_distance n k d sampl = Except.error ⟨n, k, d⟩ ↔
      (k < 0 ∨ (1 ≤ k ∧ n - (k - 1) * d ≤ k)) :=
  swmd_error_iff n k d sampl

/-- Counterexample to C3 as stated: at `(n, k, d) = (10, 2, -1)` we have
`d < 0`, and `[1, 2]` is a genuine draw from `range(1, 11)`, yet the call
succeeds (returning `[1, 1]` — with a negative distance the expansion can
even produce duplicates). -/
theorem C3_counterexample :
    ((-1 : Int) < 0) ∧ IsRawDraw 10 2 (-1) [1, 2] ∧
      sample_with_minimum_distance 10 2 (-1) [1, 2] = Except.ok [1, 1] := by
  refine ⟨by norm_num, ⟨by norm_num, by decide, by decide⟩, ?_⟩
  unfold sample_with_minimum_distance
  rw [if_pos (by unfold rangeLen; norm_num)]
  rw [expand_eq_map (-1) [1, 2] (by decide)]
  rfl

/-- Under valid parameters, the returned list is the expansion of the
draw. -/
lemma swmd_out_eq (n k d : Int) (hv : ValidParams n k d)
    {sampl out : List Int}
    (hok : sample_with_minimum_distance n k d sampl = Except.ok out) :
    out = expand d sampl := by
  rw [swmd_ok n k d hv sampl] at hok
  exact (Except.ok.inj hok).symm

/-- C4: for every valid `(n, k, d)` and any draw, every ascending-sorted
arrangement of the returned sequence has all adjacent differences at least
`d`. -/
theorem C4_spacing (n k d : Int) (sampl out l : List Int)
    (hv : ValidParams n k d) (hr : IsRawDraw n k d sampl)
    (hok : sample_with_minimum_distance n k d sampl = Except.ok out)
    (hperm : l.Perm out) (hsort : l.Pairwise (· ≤ ·)) :
    l.Chain' (fun a b => a + d ≤ b) := by
  have hout := swmd_out_eq n k d hv hok
  subst hout
  exact (sortedOut_chain n k d hv sampl hr l hperm hsort).imp
    (fun a b h => by linarith)

/-- Witness for C4 at `(n, k, d) = (10, 2, 2)`, draw `[5, 1]`, whose
output is `[7, 1]` with sorted form `[1, 7]`. -/
theorem C4_spacing_witness :
    (ValidParams 10 2 2 ∧ IsRawDraw 10 2 2 [5, 1] ∧
      sample_with_minimum_distance 10 2 2 [5, 1] = Except.ok (expand 2 [5, 1]) ∧
      ([1, 7] : List Int).Perm (expand 2 [5, 1]) ∧
      ([1, 7] : List Int).Pairwise (· ≤ ·)) ∧
    ([1, 7] : List Int).Chain' (fun a b => a + 2 ≤ b) := by
  have hv : ValidParams 10 2 2 := ⟨by norm_num, by norm_num, by norm_num, by norm_num⟩
  have hr : IsRawDraw 10 2 2 [5, 1] := ⟨by norm_num, by decide, by decide⟩
  have hexp : expand 2 [5, 1] = [7, 1] := by
    rw [expand_eq_map 2 [5, 1] (by decide)]
    rfl
  have hperm : ([1, 7] : List Int).Perm (expand 2 [5, 1]) := by
    rw [hexp]
    exact List.Perm.swap 7 1 []
  have hsort : ([1, 7] : List Int).Pairwise (· ≤ ·) := by decide
  exact ⟨⟨hv, hr, swmd_ok 10 2 2 hv [5, 1], hperm, hsort⟩,
    C4_spacing 10 2 2 [5, 1] (expand 2 [5, 1]) [1, 7] hv hr
      (swmd_ok 10 2 2 hv [5, 1]) hperm hsort⟩

/-- C5: for every valid `(n, k, d)` and any draw, the returned sequence
has exactly `k` elements and its values are pairwise distinct. -/
theorem C5_count_distinct (n k d : Int) (sampl out : List Int)
    (hv : ValidParams n k d) (hr : IsRawDraw n k d sampl)
    (hok : sample_with_minimum_distance n k d sampl = Except.ok out) :
    (out.length : Int) = k ∧ out.Nodup := by
  have hout := swmd_out_eq n k d hv hok
  subst hout
  refine ⟨?_, expand_nodup n k d hv sampl hr⟩
  rw [length_expand]
  exact hr.1

/-- Witness for C5 at `(n, k, d) = (10, 3, 2)`, draw `[5, 1, 3]`. -/
theorem C5_count_distinct_witness :
    (ValidParams 10 3 2 ∧ IsRawDraw 10 3 2 [5, 1, 3] ∧
      sample_with_minimum_distance 10 3 2 [5, 1, 3] =
        Except.ok (expand 2 [5, 1, 3])) ∧
    ((expand 2 [5, 1, 3]).length : Int) = 3 ∧ (expand 2 [5, 1, 3]).Nodup := by
  have hv : ValidParams 10 3 2 := ⟨by norm_num, by norm_num, by norm_num, by norm_num⟩
  have hr : IsRawDraw 10 3 2 [5, 1, 3] := ⟨by norm_num, by decide, by decide⟩
  exact ⟨⟨hv, hr, swmd_ok 10 3 2 hv [5, 1, 3]⟩,
    C5_count_distinct 10 3 2 [5, 1, 3] (expand 2 [5, 1, 3]) hv hr
      (swmd_ok 10 3 2 hv [5, 1, 3])⟩

/-- C6: for every valid `(n, k, d)` and any draw, every returned value `v`
satisfies `1 ≤ v ≤ n - 1`; in particular neither `0` nor `n` is ever
returned. -/
theorem C6_range (n k d : Int) (sampl out : List Int)
    (hv : ValidParams n k d) (hr : IsRawDraw n k d sampl)
    (hok : sample_with_minimum_distance n k d sampl = Except.ok out) :
    (∀ v ∈ out, 1 ≤ v ∧ v ≤ n - 1) ∧ (0 : Int) ∉ out ∧ n ∉ out := by
  have hout := swmd_out_eq n k d hv hok
  subst hout
  have hb := expand_mem_bounds n k d hv sampl hr
  refine ⟨hb, ?_, ?_⟩
  · intro h0
    have := (hb 0 h0).1
    omega
  · intro hn'
    have := (hb n hn').2
    omega

/-- Witness for C6 at `(n, k, d) = (10, 3, 2)`, draw `[2, 5, 1]`. -/
theorem C6_range_witness :
    (ValidParams 10 3 2 ∧ IsRawDraw 10 3 2 [2, 5, 1] ∧
      sample_with_minimum_distance 10 3 2 [2, 5, 1] =
        Except.ok (expand 2 [2, 5, 1])) ∧
    (∀ v ∈ expand 2 [2, 5, 1], 1 ≤ v ∧ v ≤ 9) ∧
    (0 : Int) ∉ expand 2 [2, 5, 1] ∧ (10 : Int) ∉ expand 2 [2, 5, 1] := by
  have hv : ValidParams 10 3 2 := ⟨by norm_num, by norm_num, by norm_num, by norm_num⟩
  have hr : IsRawDraw 10 3 2 [2, 5, 1] := ⟨by norm_num, by decide, by decide⟩
  have h := C6_range 10 3 2 [2, 5, 1] (expand 2 [2, 5, 1]) hv hr
    (swmd_ok 10 3 2 hv [2, 5, 1])
  exact ⟨⟨hv, hr, swmd_ok 10 3 2 hv [2, 5, 1]⟩, h.1, h.2.1, h.2.2⟩

/-- C7: for every valid `(n, k, d)` and any draw, position `i` of the
returned sequence is the `i`-th drawn value plus `d` times its 0-based
ascending rank among the drawn values, and consequently the output
preserves the relative order of the draw. -/
theorem C7_rank_expansion (n k d : Int) (sampl out : List Int)
    (hv : ValidParams n k d) (hr : IsRawDraw n k d sampl)
    (hok : sample_with_minimum_distance n k d sampl = Except.ok out) :
    out = sampl.map (fun s => s + d * (rankOf sampl s : Int)) ∧
    (∀ i j : Nat, i < out.length → j < out.length →
      (out.getD i 0 < out.getD j 0 ↔ sampl.getD i 0 < sampl.getD j 0)) := by
  have hout := swmd_out_eq n k d hv hok
  subst hout
  obtain ⟨hlen, hnd, hbound⟩ := hr
  obtain ⟨hn, hk, hd, hm⟩ := hv
  have hmap := expand_eq_map d sampl hnd
  refine ⟨hmap, ?_⟩
  intro i j hi hj
  rw [length_expand] at hi hj
  have hgetD : ∀ t : Nat, t < sampl.length → (expand d sampl).getD t 0 =
      sampl.getD t 0 + d * (rankOf sampl (sampl.getD t 0) : Int) := by
    intro t ht
    rw [hmap, List.getD_eq_getElem _ _ (by simpa using ht), List.getElem_map,
      ← List.getD_eq_getElem sampl 0 ht]
  rw [hgetD i hi, hgetD j hj]
  have hmemi : sampl.getD i 0 ∈ sampl := by
    rw [List.getD_eq_getElem _ _ hi]
    exact List.getElem_mem hi
  have hmemj : sampl.getD j 0 ∈ sampl := by
    rw [List.getD_eq_getElem _ _ hj]
    exact List.getElem_mem hj
  constructor
  · intro hlt
    rcases lt_trichotomy (sampl.getD i 0) (sampl.getD j 0) with h | h | h
    · exact h
    · rw [h] at hlt
      exact absurd hlt (lt_irrefl _)
    · exact absurd hlt (not_lt.mpr (le_of_lt (expandVal_lt sampl d hd hmemj h)))
  · intro hlt
    exact expandVal_lt sampl d hd hmemi hlt

/-- Witness for C7 at `(n, k, d) = (10, 3, 2)`, draw `[5, 1, 3]`. -/
theorem C7_rank_expansion_witness :
    (ValidParams 10 3 2 ∧ IsRawDraw 10 3 2 [5, 1, 3] ∧
      sample_with_minimum_distance 10 3 2 [5, 1, 3] =
        Except.ok (expand 2 [5, 1, 3])) ∧
    expand 2 [5, 1, 3] =
      [5, 1, 3].map (fun s => s + 2 * (rankOf [5, 1, 3] s : Int)) ∧
    (∀ i j : Nat, i < (expand 2 [5, 1, 3]).length →
      j < (expand 2 [5, 1, 3]).length →
      ((expand 2 [5, 1, 3]).getD i 0 < (expand 2 [5, 1, 3]).getD j 0 ↔
        ([5, 1, 3] : List Int).getD i 0 < ([5, 1, 3] : List Int).getD j 0)) := by
  have hv : ValidParams 10 3 2 := ⟨by norm_num, by norm_num, by norm_num, by norm_num⟩
  have hr : IsRawDraw 10 3 2 [5, 1, 3] := ⟨by norm_num, by decide, by decide⟩
  have h := C7_rank_expansion 10 3 2 [5, 1, 3] (expand 2 [5, 1, 3]) hv hr
    (swmd_ok 10 3 2 hv [5, 1, 3])
  exact ⟨⟨hv, hr, swmd_ok 10 3 2 hv [5, 1, 3]⟩, h.1, h.2⟩

/-- C8: for every valid `(n, k, d)` with `k ≥ 2`, the sorted output has all
adjacent differences at least `d + 1` (strictly more than `d`), and no two
distinct positions of the output ever differ by exactly `d`. -/
theorem C8_strict_spacing (n k d : Int) (sampl out l : List Int)
    (hv : ValidParams n k d) (hk2 : 2 ≤ k) (hr : IsRawDraw n k d sampl)
    (hok : sample_with_minimum_distance n k d sampl = Except.ok out)
    (hperm : l.Perm out) (hsort : l.Pairwise (· ≤ ·)) :
    l.Chain' (fun a b => a + d + 1 ≤ b) ∧
    out.Pairwise (fun a b => b - a ≠ d ∧ a - b ≠ d) := by
  have hout := swmd_out_eq n k d hv hok
  subst hout
  refine ⟨sortedOut_chain n k d hv sampl hr l hperm hsort, ?_⟩
  have hnd := expand_nodup n k d hv sampl hr
  have hd : (0 : Int) ≤ d := hv.2.2.1
  refine List.Pairwise.imp_of_mem ?_ hnd
  intro a b ha hb hab
  have hgap := expand_gap n k d hv sampl hr
  rcases lt_trichotomy a b with h | h | h
  · have := hgap a ha b hb h
    constructor <;> intro hcontra <;> linarith
  · exact absurd h hab
  · have := hgap b hb a ha h
    constructor <;> intro hcontra <;> linarith

/-- Witness for C8 at `(n, k, d) = (10, 2, 2)`, draw `[5, 1]`. -/
theorem C8_strict_spacing_witness :
    (ValidParams 10 2 2 ∧ (2 : Int) ≤ 2 ∧ IsRawDraw 10 2 2 [5, 1] ∧
      sample_with_minimum_distance 10 2 2 [5, 1] = Except.ok (expand 2 [5, 1]) ∧
      ([1, 7] : List Int).Perm (expand 2 [5, 1]) ∧
      ([1, 7] : List Int).Pairwise (· ≤ ·)) ∧
    ([1, 7] : List Int).Chain' (fun a b => a + 2 + 1 ≤ b) ∧
    (expand 2 [5, 1]).Pairwise (fun a b => b - a ≠ 2 ∧ a - b ≠ 2) := by
  have hv : ValidParams 10 2 2 := ⟨by norm_num, by norm_num, by norm_num, by norm_num⟩
  have hr : IsRawDraw 10 2 2 [5, 1] := ⟨by norm_num, by decide, by decide⟩
  have hexp : expand 2 [5, 1] = [7, 1] := by
    rw [expand_eq_map 2 [5, 1] (by decide)]
    rfl
  have hperm : ([1, 7] : List Int).Perm (expand 2 [5, 1]) := by
    rw [hexp]
    exact List.Perm.swap 7 1 []
  have hsort : ([1, 7] : List Int).Pairwise (· ≤ ·) := by decide
  have h := C8_strict_spacing 10 2 2 [5, 1] (expand 2 [5, 1]) [1, 7] hv
    (by norm_num) hr (swmd_ok 10 2 2 hv [5, 1]) hperm hsort
  exact ⟨⟨hv, by norm_num, hr, swmd_ok 10 2 2 hv [5, 1], hperm, hsort⟩, h.1, h.2⟩

/-- C1 (corrected): for every valid `(n, k, d)` the reachable outputs,
viewed up to ordering, are exactly the strictly ascending gap-`d+1` lists
of `k` values of `[1, n-1]` (rather than the claimed gap-`d` family):
(a) the sorted form of every output lies in that family; (b) every member
of the family is hit, namely by its contracted draw; and (c) two draws
produce the same output value-set exactly when they are the same draw
value-set, so the expansion is a bijection between draw value-sets and
that family and a uniform draw induces the uniform distribution on it. -/
theorem C1_bijection (n k d : Int) (hv : ValidParams n k d) :
    (∀ sampl out l : List Int, IsRawDraw n k d sampl →
        sample_with_minimum_distance n k d sampl = Except.ok out →
        l.Perm out → l.Pairwise (· ≤ ·) → SortedGapList n k d l) ∧
    (∀ l : List Int, SortedGapList n k d l →
        IsRawDraw n k d (contractFrom d 0 l) ∧
        sample_with_minimum_distance n k d (contractFrom d 0 l) =
          Except.ok l) ∧
    (∀ s₁ s₂ out₁ out₂ : List Int, IsRawDraw n k d s₁ → IsRawDraw n k d s₂ →
        sample_with_minimum_distance n k d s₁ = Except.ok out₁ →
        sample_with_minimum_distance n k d s₂ = Except.ok out₂ →
        (out₁.Perm out₂ ↔ s₁.Perm s₂)) := by
  refine ⟨?_, ?_, ?_⟩
  · intro sampl out l hr hok hperm hsort
    have hout := swmd_out_eq n k d hv hok
    subst hout
    refine ⟨?_, sortedOut_chain n k d hv sampl hr l hperm hsort, ?_⟩
    · rw [hperm.length_eq, length_expand]
      exact hr.1
    · intro x hx
      exact expand_mem_bounds n k d hv sampl hr x (hperm.subset hx)
  · intro l hl
    obtain ⟨hraw, hexp⟩ := sortedGap_contract n k d hv l hl
    exact ⟨hraw, by rw [swmd_ok n k d hv, hexp]⟩
  · intro s₁ s₂ out₁ out₂ h₁ h₂ hok₁ hok₂
    have ho₁ := swmd_out_eq n k d hv hok₁
    subst ho₁
    have ho₂ := swmd_out_eq n k d hv hok₂
    subst ho₂
    have hnd₁ := h₁.2.1
    have hnd₂ := h₂.2.1
    have hd0 : (0 : Int) ≤ d := hv.2.2.1
    constructor
    · intro hperm
      obtain ⟨ks₁, hksp₁, hks₁⟩ := exists_sorted_perm s₁ hnd₁
      obtain ⟨ks₂, hksp₂, hks₂⟩ := exists_sorted_perm s₂ hnd₂
      have he₁ := expand_perm_expandFrom d s₁ ks₁ hnd₁ hksp₁ hks₁
      have he₂ := expand_perm_expandFrom d s₂ ks₂ hnd₂ hksp₂ hks₂
      have hEE : (expandFrom d 0 ks₁).Perm (expandFrom d 0 ks₂) :=
        (he₁.symm.trans hperm).trans he₂
      haveI : IsTrans Int (fun a b => a + d + 1 ≤ b) :=
        ⟨fun a b c h1 h2 => by linarith⟩
      have hsorted : ∀ ks : List Int, ks.Pairwise (· < ·) →
          (expandFrom d 0 ks).Pairwise (· < ·) := by
        intro ks hks
        have hchain1 : ks.Chain' (fun a b => a + 1 ≤ b) :=
          (hks.imp (fun h => Int.lt_iff_add_one_le.mp h)).chain'
        have hce := chain_expandFrom d hd0 ks 0 hchain1
        have hpw : (expandFrom d 0 ks).Pairwise (fun a b => a + d + 1 ≤ b) :=
          List.chain'_iff_pairwise.mp hce
        exact hpw.imp (fun h => by linarith)
      haveI inst2 : IsAntisymm Int (· < ·) :=
        ⟨fun a b hab hba => absurd (lt_trans hab hba) (lt_irrefl a)⟩
      have hEq : expandFrom d 0 ks₁ = expandFrom d 0 ks₂ :=
        @List.eq_of_perm_of_sorted Int (· < ·) inst2 _ _ hEE
          (hsorted ks₁ hks₁) (hsorted ks₂ hks₂)
      have hksEq : ks₁ = ks₂ := by
        have hc := congrArg (contractFrom d 0) hEq
        rwa [contractFrom_expandFrom, contractFrom_expandFrom] at hc
      exact hksp₁.symm.trans (hksEq ▸ hksp₂)
    · intro hperm
      rw [expand_eq_map d s₁ hnd₁, expand_eq_map d s₂ hnd₂]
      have hmapeq : s₁.map (fun s => s + d * (rankOf s₁ s : Int)) =
          s₁.map (fun s => s + d * (rankOf s₂ s : Int)) :=
        List.map_congr_left (fun a _ => by rw [rankOf_perm hperm])
      rw [hmapeq]
      exact hperm.map _

/-- Witness for C1 at `(n, k, d) = (10, 2, 2)`. -/
theorem C1_bijection_witness :
    ValidParams 10 2 2 ∧
    ((∀ sampl out l : List Int, IsRawDraw 10 2 2 sampl →
        sample_with_minimum_distance 10 2 2 sampl = Except.ok out →
        l.Perm out → l.Pairwise (· ≤ ·) → SortedGapList 10 2 2 l) ∧
    (∀ l : List Int, SortedGapList 10 2 2 l →
        IsRawDraw 10 2 2 (contractFrom 2 0 l) ∧
        sample_with_minimum_distance 10 2 2 (contractFrom 2 0 l) =
          Except.ok l) ∧
    (∀ s₁ s₂ out₁ out₂ : List Int, IsRawDraw 10 2 2 s₁ → IsRawDraw 10 2 2 s₂ →
        sample_with_minimum_distance 10 2 2 s₁ = Except.ok out₁ →
        sample_with_minimum_distance 10 2 2 s₂ = Except.ok out₂ →
        (out₁.Perm out₂ ↔ s₁.Perm s₂))) :=
  ⟨⟨by norm_num, by norm_num, by norm_num, by norm_num⟩,
    C1_bijection 10 2 2 ⟨by norm_num, by norm_num, by norm_num, by norm_num⟩⟩

/-- Counterexample to C1 as stated: for `(n, k, d) = (10, 2, 2)`, the set
`{1, 3}` is a size-2 subset of `[1, 10)` whose sorted adjacent gap is
`2 ≥ d`, yet no draw can produce it — the source's outputs always have
gaps strictly greater than `d`, so the claimed family (gaps `≥ d`) is not
the output family and the distribution cannot be uniform over it. -/
theorem C1_counterexample :
    ([1, 3] : List Int).Chain' (fun a b => a + 2 ≤ b) ∧
    (([1, 3] : List Int).length : Int) = 2 ∧
    (∀ x ∈ ([1, 3] : List Int), 1 ≤ x ∧ x ≤ 9) ∧
    ¬ ∃ sampl out : List Int, IsRawDraw 10 2 2 sampl ∧
        sample_with_minimum_distance 10 2 2 sampl = Except.ok out ∧
        out.Perm [1, 3] := by
  refine ⟨List.chain'_cons.mpr ⟨by norm_num, List.chain'_singleton 3⟩, by decide,
    by decide, ?_⟩
  rintro ⟨sampl, out, hr, hok, hperm⟩
  have hv : ValidParams 10 2 2 := ⟨by norm_num, by norm_num, by norm_num, by norm_num⟩
  have hout := swmd_out_eq 10 2 2 hv hok
  subst hout
  have h1 : (1 : Int) ∈ expand 2 sampl := hperm.symm.subset (by decide)
  have h3 : (3 : Int) ∈ expand 2 sampl := hperm.symm.subset (by decide)
  have hgap := expand_gap 10 2 2 hv sampl hr 1 h1 3 h3 (by norm_num)
  linarith

/-- C9: `pairwise` yields exactly the adjacent pairs: it has
`len - 1` entries (`0` for the empty and singleton inputs), entry `i` is
`(xs[i], xs[i+1])`, and on `[1, 2, 3]` it yields `[(1,2), (2,3)]`. -/
theorem C9_pairwise_adjacent (α : Type) (l : List α) :
    (pairwise l).length = l.length - 1 ∧
    (∀ i : Nat, (pairwise l)[i]? =
      l[i]?.bind (fun a => (l[i + 1]?).map (fun b => (a, b)))) ∧
    pairwise ([] : List Int) = [] ∧
    pairwise [(1 : Int)] = [] ∧
    pairwise [(1 : Int), 2, 3] = [(1, 2), (2, 3)] := by
  refine ⟨?_, ?_, rfl, rfl, rfl⟩
  · unfold pairwise
    rw [List.length_zip, List.length_tail]
    exact Nat.min_eq_right (Nat.sub_le _ _)
  · intro i
    unfold pairwise
    rw [List.zip_eq_zipWith, List.getElem?_zipWith', List.getElem?_tail]
    cases l[i]? <;> cases l[i + 1]? <;> simp

/-- C10: modelling the external parser as an oracle, `load_fasta` passes a
successful parse through unchanged, fails with the duplicate-header error
exactly when the parser fails with `ValueError`, and admits no other
outcome. -/
theorem C10_load_fasta (F : Type) (fname : String) (parse : Except String F) :
    (∀ fa : F, parse = Except.ok fa → load_fasta fname parse = Except.ok fa) ∧
    ((∃ e, parse = Except.error e) ↔
      load_fasta fname parse =
        Except.error ⟨"Fasta " ++ fname ++ " contains duplicate header"⟩) ∧
    (∀ res : Except FastaDuplicateHeaderError F, load_fasta fname parse = res →
      (∃ fa, res = Except.ok fa ∧ parse = Except.ok fa) ∨
      res = Except.error ⟨"Fasta " ++ fname ++ " contains duplicate header"⟩) := by
  cases parse with
  | ok fa =>
    refine ⟨?_, ?_, ?_⟩
    · intro fa' h
      rw [← Except.ok.inj h]
      rfl
    · constructor
      · rintro ⟨e, he⟩
        exact absurd he (by simp)
      · intro h
        exact absurd h (by simp [load_fasta])
    · intro res hres
      exact Or.inl ⟨fa, by rw [← hres]; exact ⟨rfl, rfl⟩⟩
  | error e =>
    refine ⟨?_, ?_, ?_⟩
    · intro fa h
      exact absurd h (by simp)
    · exact ⟨fun _ => rfl, fun _ => ⟨e, rfl⟩⟩
    · intro res hres
      right
      rw [← hres]
      rfl

/-- Witness for C10: a failing parse oracle is turned into the
duplicate-header error with the source's message. -/
theorem C10_load_fasta_witness :
    ((Except.error "dup" : Except String Nat) = Except.error "dup") ∧
    load_fasta "genome.fa" (Except.error "dup" : Except String Nat) =
      Except.error ⟨"Fasta genome.fa contains duplicate header"⟩ :=
  ⟨rfl, (C10_load_fasta Nat "genome.fa" (Except.error "dup")).2.1.mp ⟨"dup", rfl⟩⟩

end MutSim
